import Mathlib

/-
Verification development for the quantum-clustering package.

The embedding models:
  - app/feature_map.py   : parameterized circuits (angle encoding, ZZ feature map)
                           and `encode_to_statevector`, via an exact gate-level
                           statevector simulator over (Fin q → Bool) → ℂ;
  - app/quantum_distance.py : `fidelity` and `quantum_distance`;
  - app/quantum_clustering.py : `quantum_kmeans` with its helpers, threading an
                           explicit deterministic random generator that models
                           numpy's seeded `default_rng`.

Machine floats are modelled by real numbers; numpy arrays by lists or by
functions out of a finite index type.  Fallible operations return `Except`.
-/

namespace QuantumClustering

open scoped BigOperators

/-- Errors that the Python code can raise, together with the error names used
by the specification.  The code itself defines no exception classes: the only
failures it can produce are numpy's `ValueError` (from `rng.choice` when the
sample is larger than the population) and a qiskit error (simulating a circuit
that still has unbound parameters).  The spec-side names `dimensionMismatch`,
`invalidClusterCount` and `emptyDataset` are included so that claims about them
can be stated; no code path produces them. -/
inductive QErr where
  | valueError
  | qiskitError
  | dimensionMismatch
  | invalidClusterCount
  | emptyDataset
deriving DecidableEq, Repr

/-- Gates that occur in the two feature-map circuits: the rotations used by
`build_angle_encoding_map` and the Hadamard / phase / controlled-X gates that
make up qiskit's `ZZFeatureMap`.  Qubit indices are plain naturals. -/
inductive Gate where
  | ry (θ : ℝ) (t : ℕ)
  | rz (θ : ℝ) (t : ℕ)
  | h (t : ℕ)
  | p (θ : ℝ) (t : ℕ)
  | cx (c t : ℕ)

/-- A statevector on `q` qubits, indexed by classical bit assignments. -/
abbrev QState (q : ℕ) := (Fin q → Bool) → ℂ

/-- Squared-amplitude sum of a statevector (the quantity the spec calls
`‖state‖²`, and the tests compute as `np.sum(np.abs(state) ** 2)`). -/
noncomputable def normSqState {q : ℕ} (ψ : QState q) : ℝ :=
  ∑ f, Complex.normSq (ψ f)

/-- Apply a single-qubit gate with matrix `[[a, b], [c, d]]` to qubit `t`. -/
noncomputable def apply1 {q : ℕ} (a b c d : ℂ) (t : Fin q) (ψ : QState q) :
    QState q :=
  fun f =>
    if f t then c * ψ (Function.update f t false) + d * ψ (Function.update f t true)
    else a * ψ (Function.update f t false) + b * ψ (Function.update f t true)

/-- Basis-state action of controlled-X: flip the target bit when the control
bit is set. -/
def cxFlip {q : ℕ} (c t : Fin q) (f : Fin q → Bool) : Fin q → Bool :=
  if f c then Function.update f t (!(f t)) else f

/-- Apply a controlled-X gate with control `c` and target `t`. -/
noncomputable def applyCX {q : ℕ} (c t : Fin q) (ψ : QState q) : QState q :=
  fun f => ψ (cxFlip c t f)

/-- Apply one gate to a `q`-qubit state.  Matrices are the standard qiskit
conventions: RY(θ) = [[cos(θ/2), -sin(θ/2)], [sin(θ/2), cos(θ/2)]],
RZ(θ) = diag(exp(-iθ/2), exp(iθ/2)), H = (1/√2)[[1,1],[1,-1]],
P(θ) = diag(1, exp(iθ)).  Gates whose indices are out of range (or a CX whose
control equals its target, which qiskit rejects at circuit-construction time)
act as the identity; the circuits built below never produce them. -/
noncomputable def applyGate {q : ℕ} (g : Gate) (ψ : QState q) : QState q :=
  match g with
  | Gate.ry θ t =>
    if ht : t < q then
      apply1 (Real.cos (θ / 2)) (-(Real.sin (θ / 2) : ℝ))
        (Real.sin (θ / 2)) (Real.cos (θ / 2)) ⟨t, ht⟩ ψ
    else ψ
  | Gate.rz θ t =>
    if ht : t < q then
      apply1 (Complex.exp ((-(θ / 2) : ℝ) * Complex.I)) 0 0
        (Complex.exp ((θ / 2 : ℝ) * Complex.I)) ⟨t, ht⟩ ψ
    else ψ
  | Gate.h t =>
    if ht : t < q then
      apply1 ((Real.sqrt 2)⁻¹ : ℝ) ((Real.sqrt 2)⁻¹ : ℝ)
        ((Real.sqrt 2)⁻¹ : ℝ) (-((Real.sqrt 2)⁻¹ : ℝ)) ⟨t, ht⟩ ψ
    else ψ
  | Gate.p θ t =>
    if ht : t < q then
      apply1 1 0 0 (Complex.exp ((θ : ℝ) * Complex.I)) ⟨t, ht⟩ ψ
    else ψ
  | Gate.cx c t =>
    if hct : c < q ∧ t < q ∧ c ≠ t then
      applyCX ⟨c, hct.1⟩ ⟨t, hct.2.1⟩ ψ
    else ψ

/-- Run a gate list left to right on a state. -/
noncomputable def runCircuit {q : ℕ} (gs : List Gate) (ψ : QState q) : QState q :=
  gs.foldl (fun s g => applyGate g s) ψ

/-- The all-zeros computational basis state, the simulator's initial state. -/
noncomputable def initState (q : ℕ) : QState q :=
  fun f => if f = fun _ => false then 1 else 0

/-- A parameterized feature-map circuit: a number of qubits, a number of free
parameters, and the gate list obtained by binding concrete values to the
parameters in declaration order. -/
structure FeatureMap where
  numQubits : ℕ
  numParams : ℕ
  gates : (Fin numParams → ℝ) → List Gate

/-- Embeds `build_angle_encoding_map(num_qubits)`: one parameter per qubit,
and for each qubit `i` the gates RY(x_i) then RZ(x_i / 2). -/
noncomputable def build_angle_encoding_map (num_qubits : ℕ) : FeatureMap where
  numQubits := num_qubits
  numParams := num_qubits
  gates := fun xs =>
    (List.finRange num_qubits).flatMap
      (fun i => [Gate.ry (xs i) i, Gate.rz (xs i / 2) i])

/-- Qubit pairs `(i, j)` with `i < j` in lexicographic order, the full
entanglement pattern of qiskit's `ZZFeatureMap`. -/
def zzPairs (n : ℕ) : List (Fin n × Fin n) :=
  (List.finRange n).flatMap
    (fun i => ((List.finRange n).filter (fun j => i < j)).map (fun j => (i, j)))

/-- Embeds `build_zz_feature_map(num_qubits, reps)`, i.e. qiskit's
`ZZFeatureMap(feature_dimension=num_qubits, reps=reps)` with the default data
map: each repetition applies H to every qubit, then P(2·x_i) to qubit `i`,
then for each pair `i < j` the block CX(i,j); P(2·(π−x_i)·(π−x_j)) on `j`;
CX(i,j). -/
noncomputable def build_zz_feature_map (num_qubits reps : ℕ) : FeatureMap where
  numQubits := num_qubits
  numParams := num_qubits
  gates := fun xs =>
    (List.range reps).flatMap (fun _ =>
      (List.finRange num_qubits).map (fun i => Gate.h i)
      ++ (List.finRange num_qubits).map (fun i => Gate.p (2 * xs i) i)
      ++ (zzPairs num_qubits).flatMap (fun ij =>
          [Gate.cx ij.1 ij.2,
           Gate.p (2 * ((Real.pi - xs ij.1) * (Real.pi - xs ij.2))) ij.2,
           Gate.cx ij.1 ij.2]))

/-- Embeds `encode_to_statevector(feature_map, x)`.  The Python code binds
parameters with `zip(feature_map.parameters, x)`, which pairs parameters with
point components positionally and silently drops surplus components of `x`;
if `x` is shorter than the parameter list, some parameters stay unbound and
`Statevector.from_instruction` raises a qiskit error. -/
noncomputable def encode_to_statevector (fm : FeatureMap) (x : List ℝ) :
    Except QErr (QState fm.numQubits) :=
  if h : fm.numParams ≤ x.length then
    Except.ok (runCircuit
      (fm.gates (fun i => x.get ⟨(i : ℕ), lt_of_lt_of_le i.isLt h⟩))
      (initState fm.numQubits))
  else
    Except.error QErr.qiskitError

/-- Embeds `fidelity(state1, state2)`: squared magnitude of `np.vdot`, the
complex inner product conjugating its first argument. -/
noncomputable def fidelity {ι : Type} [Fintype ι] (s1 s2 : ι → ℂ) : ℝ :=
  Complex.abs (∑ i, (starRingEnd ℂ) (s1 i) * s2 i) ^ 2

/-- Embeds `quantum_distance(state1, state2) = 1.0 - fidelity(state1, state2)`. -/
noncomputable def quantum_distance {ι : Type} [Fintype ι] (s1 s2 : ι → ℂ) : ℝ :=
  1 - fidelity s1 s2

/-- A data point: a row of the input matrix `X`. -/
abbrev Pt := List ℝ

/-- Deterministic random generator modelling `np.random.default_rng(seed)`:
an infinite stream of raw natural-number draws together with a position.
The concrete stream function stands in for PCG64; every property proved below
depends only on the generator being a pure function of the seed. -/
structure Rng where
  stream : ℕ → ℕ
  pos : ℕ

/-- Draw the next raw value and advance the generator. -/
def Rng.next (r : Rng) : ℕ × Rng :=
  (r.stream r.pos, ⟨r.stream, r.pos + 1⟩)

/-- Models `np.random.default_rng(random_state)`. -/
def default_rng (seed : ℕ) : Rng :=
  ⟨fun i => (seed + i + 1) * 2654435761 % 4294967296, 0⟩

/-- Models `rng.integers(0, n)`: a draw reduced into `[0, n)`. -/
def Rng.integers (n : ℕ) (r : Rng) : ℕ × Rng :=
  let vr := r.next
  (vr.1 % n, vr.2)

/-- Sampling `k` distinct indices from a pool without replacement: repeatedly
draw a position into the remaining pool and remove the chosen element. -/
def choiceAux : ℕ → List ℕ → Rng → List ℕ × Rng
  | 0, _, r => ([], r)
  | k + 1, avail, r =>
    let vr := r.next
    let i := vr.1 % avail.length
    let rest := choiceAux k (avail.eraseIdx i) vr.2
    (avail.getD i 0 :: rest.1, rest.2)

/-- Models `rng.choice(n, size=k, replace=False)`: raises numpy `ValueError`
when the sample is larger than the population (`k > n`). -/
def Rng.choice (n k : ℕ) (r : Rng) : Except QErr (List ℕ × Rng) :=
  if k ≤ n then Except.ok (choiceAux k (List.range n) r)
  else Except.error QErr.valueError

/-- Embeds `_initialize_centers(X, n_clusters, rng)`: pick `n_clusters`
distinct row indices of `X` via `rng.choice` and return those rows. -/
def initialize_centers (X : List Pt) (k : ℕ) (r : Rng) :
    Except QErr (List Pt × Rng) :=
  match Rng.choice X.length k r with
  | Except.error e => Except.error e
  | Except.ok ir => Except.ok (ir.1.map (fun i => X.getD i []), ir.2)

/-- Embeds `encode_to_statevector` mapped over a list of points (the list
comprehension inside `_encode_points`); the first failure propagates. -/
noncomputable def encode_points (fm : FeatureMap) :
    List Pt → Except QErr (List (QState fm.numQubits))
  | [] => Except.ok []
  | x :: xs =>
    match encode_to_statevector fm x, encode_points fm xs with
    | Except.ok s, Except.ok ss => Except.ok (s :: ss)
    | Except.error e, _ => Except.error e
    | _, Except.error e => Except.error e

/-- Tail of `np.argmin`: scan the remaining values, keeping the index of the
first strict minimum seen so far. -/
noncomputable def argminGo : List ℝ → ℕ → ℕ → ℝ → ℕ
  | [], _, best, _ => best
  | v :: rest, i, best, bv =>
    if v < bv then argminGo rest (i + 1) i v
    else argminGo rest (i + 1) best bv

/-- Models `np.argmin` on a list: index of the first minimum (0 on `[]`,
where numpy would raise; the clustering loop only calls it on the non-empty
list of distances to the `k ≥ 1` centers). -/
noncomputable def argmin : List ℝ → ℕ
  | [] => 0
  | v :: rest => argminGo rest 1 0 v

/-- Embeds the assignment step: each point takes the index of the nearest
center under `quantum_distance`, first minimum winning ties. -/
noncomputable def assign_labels {q : ℕ} (dataStates centerStates : List (QState q)) :
    List ℕ :=
  dataStates.map (fun s => argmin (centerStates.map (fun c => quantum_distance s c)))

/-- Rows of `X` whose label equals `j`, i.e. `X[labels == k]`. -/
def assignedPoints (X : List Pt) (labels : List ℕ) (j : ℕ) : List Pt :=
  ((X.zip labels).filter (fun pl => pl.2 = j)).map (fun pl => pl.1)

/-- Coordinate-wise sum of a non-empty list of equal-length vectors. -/
noncomputable def vsum : List Pt → Pt
  | [] => []
  | x :: xs => xs.foldl (fun acc y => List.zipWith (fun a b => a + b) acc y) x

/-- Models `cluster_points.mean(axis=0)`: coordinate-wise arithmetic mean. -/
noncomputable def vmean (ps : List Pt) : Pt :=
  (vsum ps).map (fun s => s / (ps.length : ℝ))

/-- Embeds the update step's loop body for cluster indices `j, j+1, …`
(`rem` of them): the new center of a cluster is the mean of its assigned
points, or a row of `X` drawn by `rng.integers(0, len(X))` when the cluster is
empty; the generator is threaded in cluster-index order, exactly as the Python
`for k in range(n_clusters)` loop consumes it. -/
noncomputable def update_go (X : List Pt) (labels : List ℕ) :
    ℕ → ℕ → Rng → List Pt × Rng
  | _, 0, r => ([], r)
  | j, rem + 1, r =>
    let pts := assignedPoints X labels j
    if pts.isEmpty then
      let vr := Rng.integers X.length r
      let rest := update_go X labels (j + 1) rem vr.2
      (X.getD vr.1 [] :: rest.1, rest.2)
    else
      let rest := update_go X labels (j + 1) rem r
      (vmean pts :: rest.1, rest.2)

/-- Embeds the full update step over clusters `0 … n_clusters - 1`. -/
noncomputable def update_centers (X : List Pt) (labels : List ℕ) (k : ℕ)
    (r : Rng) : List Pt × Rng :=
  update_go X labels 0 k r

/-- Models `np.allclose(a, b)` on two lists of vectors of equal shape:
elementwise `|a - b| ≤ atol + rtol * |b|` with numpy defaults
`rtol = 1e-5`, `atol = 1e-8`. -/
noncomputable def allclose (A B : List Pt) : Bool :=
  (A.zip B).all (fun ab =>
    (ab.1.zip ab.2).all (fun xy =>
      decide (|xy.1 - xy.2| ≤ 1e-8 + 1e-5 * |xy.2|)))

/-- Embeds the `for _ in range(max_iters)` loop of `quantum_kmeans`: encode
data and centers, assign labels, update centers, and stop early when the
centers have stabilized (returning this iteration's labels and the
just-computed centers). -/
noncomputable def kmeans_loop (X : List Pt) (fm : FeatureMap) (k : ℕ) :
    ℕ → List ℕ → List Pt → Rng → Except QErr (List ℕ × List Pt)
  | 0, labels, centers, _ => Except.ok (labels, centers)
  | m + 1, _, centers, r =>
    match encode_points fm X, encode_points fm centers with
    | Except.ok dataStates, Except.ok centerStates =>
      let labels2 := assign_labels dataStates centerStates
      let ncr := update_centers X labels2 k r
      if allclose ncr.1 centers then Except.ok (labels2, ncr.1)
      else kmeans_loop X fm k m labels2 ncr.1 ncr.2
    | Except.error e, _ => Except.error e
    | _, Except.error e => Except.error e

/-- Embeds `quantum_kmeans(X, n_clusters, max_iters, feature_map_builder,
random_state)`: seed the generator, sample initial centers from the data,
initialize all labels to 0, then run the iteration loop. -/
noncomputable def quantum_kmeans (X : List Pt) (n_clusters max_iters : ℕ)
    (fm : FeatureMap) (random_state : ℕ) : Except QErr (List ℕ × List Pt) :=
  match initialize_centers X n_clusters (default_rng random_state) with
  | Except.error e => Except.error e
  | Except.ok cr => kmeans_loop X fm n_clusters max_iters
      (List.replicate X.length 0) cr.1 cr.2

/-! ## Theorems -/

/-- Helper: the inner product of a unit vector with itself is `1`. -/
theorem inner_self_eq_one {n : ℕ} (s : Fin n → ℂ)
    (h : ∑ i, Complex.normSq (s i) = 1) :
    ∑ i, (starRingEnd ℂ) (s i) * s i = 1 := by
  have hs : ∀ i : Fin n, (starRingEnd ℂ) (s i) * s i
      = ((Complex.normSq (s i) : ℝ) : ℂ) := by
    intro i
    rw [← Complex.normSq_eq_conj_mul_self]
  calc ∑ i, (starRingEnd ℂ) (s i) * s i
      = ∑ i, ((Complex.normSq (s i) : ℝ) : ℂ) := Finset.sum_congr rfl (fun i _ => hs i)
    _ = (((∑ i, Complex.normSq (s i)) : ℝ) : ℂ) := by push_cast; rfl
    _ = 1 := by rw [h]; norm_num

/-- Helper: Cauchy-Schwarz bound for `fidelity` of unit vectors. -/
theorem fidelity_le_one {n : ℕ} (s1 s2 : Fin n → ℂ)
    (h1 : ∑ i, Complex.normSq (s1 i) = 1)
    (h2 : ∑ i, Complex.normSq (s2 i) = 1) :
    fidelity s1 s2 ≤ 1 := by
  unfold fidelity
  have habs : Complex.abs (∑ i, (starRingEnd ℂ) (s1 i) * s2 i)
      ≤ ∑ i, Complex.abs (s1 i) * Complex.abs (s2 i) := by
    refine le_trans (AbsoluteValue.sum_le Complex.abs _ _) ?_
    refine le_of_eq (Finset.sum_congr rfl (fun i _ => ?_))
    rw [map_mul, Complex.abs_conj]
  have hsq : (∑ i, Complex.abs (s1 i) * Complex.abs (s2 i)) ^ 2
      ≤ (∑ i, Complex.abs (s1 i) ^ 2) * ∑ i, Complex.abs (s2 i) ^ 2 :=
    Finset.sum_mul_sq_le_sq_mul_sq _ _ _
  have h1' : ∑ i, Complex.abs (s1 i) ^ 2 = 1 := by
    rw [← h1]; exact Finset.sum_congr rfl (fun i _ => Complex.sq_abs _)
  have h2' : ∑ i, Complex.abs (s2 i) ^ 2 = 1 := by
    rw [← h2]; exact Finset.sum_congr rfl (fun i _ => Complex.sq_abs _)
  have hnn : (0 : ℝ) ≤ ∑ i, Complex.abs (s1 i) * Complex.abs (s2 i) :=
    Finset.sum_nonneg (fun i _ => mul_nonneg (Complex.abs.nonneg _) (Complex.abs.nonneg _))
  calc Complex.abs (∑ i, (starRingEnd ℂ) (s1 i) * s2 i) ^ 2
      ≤ (∑ i, Complex.abs (s1 i) * Complex.abs (s2 i)) ^ 2 :=
        pow_le_pow_left₀ (Complex.abs.nonneg _) habs 2
    _ ≤ (∑ i, Complex.abs (s1 i) ^ 2) * ∑ i, Complex.abs (s2 i) ^ 2 := hsq
    _ = 1 := by rw [h1', h2']; norm_num

/-- C7: for unit-norm statevectors `s1, s2`, `fidelity(s1, s2)` lies in
`[0, 1]`, `quantum_distance(s1, s2) = 1 - fidelity(s1, s2)` lies in `[0, 1]`,
and `quantum_distance(s1, s1)` is 0 within the 1e-6 tolerance. -/
theorem fidelity_and_distance_bounds {n : ℕ} (s1 s2 : Fin n → ℂ)
    (h1 : ∑ i, Complex.normSq (s1 i) = 1)
    (h2 : ∑ i, Complex.normSq (s2 i) = 1) :
    (0 ≤ fidelity s1 s2 ∧ fidelity s1 s2 ≤ 1) ∧
    (0 ≤ quantum_distance s1 s2 ∧ quantum_distance s1 s2 ≤ 1) ∧
    |quantum_distance s1 s1| ≤ 1e-6 := by
  have hfnn : 0 ≤ fidelity s1 s2 := sq_nonneg _
  have hfle : fidelity s1 s2 ≤ 1 := fidelity_le_one s1 s2 h1 h2
  have hself : fidelity s1 s1 = 1 := by
    unfold fidelity
    rw [inner_self_eq_one s1 h1]
    simp
  refine ⟨⟨hfnn, hfle⟩, ⟨?_, ?_⟩, ?_⟩
  · unfold quantum_distance; linarith
  · unfold quantum_distance
    have : 0 ≤ fidelity s1 s2 := hfnn
    linarith
  · unfold quantum_distance
    rw [hself]
    norm_num

/-- Witness for C7 at the concrete unit vectors `(1, 0)` and `(0, 1)`. -/
theorem fidelity_and_distance_bounds_witness :
    (0 ≤ fidelity (fun i : Fin 2 => if i = 0 then 1 else 0)
        (fun i : Fin 2 => if i = 0 then 0 else 1) ∧
      fidelity (fun i : Fin 2 => if i = 0 then 1 else 0)
        (fun i : Fin 2 => if i = 0 then 0 else 1) ≤ 1) ∧
    (0 ≤ quantum_distance (fun i : Fin 2 => if i = 0 then 1 else 0)
        (fun i : Fin 2 => if i = 0 then 0 else 1) ∧
      quantum_distance (fun i : Fin 2 => if i = 0 then 1 else 0)
        (fun i : Fin 2 => if i = 0 then 0 else 1) ≤ 1) ∧
    |quantum_distance (fun i : Fin 2 => if i = 0 then 1 else 0)
        (fun i : Fin 2 => if i = 0 then 1 else 0)| ≤ 1e-6 :=
  fidelity_and_distance_bounds _ _
    (by simp [Fin.sum_univ_two])
    (by simp [Fin.sum_univ_two])

/-- C8: `fidelity` is exactly symmetric in its two arguments. -/
theorem fidelity_symm {n : ℕ} (s1 s2 : Fin n → ℂ) :
    fidelity s1 s2 = fidelity s2 s1 := by
  unfold fidelity
  have h : ∑ i, (starRingEnd ℂ) (s2 i) * s1 i
      = (starRingEnd ℂ) (∑ i, (starRingEnd ℂ) (s1 i) * s2 i) := by
    rw [map_sum]
    refine Finset.sum_congr rfl (fun i _ => ?_)
    rw [map_mul, RingHomInvPair.comp_apply_eq]
    ring
  rw [h, Complex.abs_conj]

/-- C9: with more point components than free parameters, `encode_to_statevector`
does not fail: it binds only the first `numParams` components (the `zip`
truncates) and returns the same statevector as the truncated point. -/
theorem encode_ignores_surplus (fm : FeatureMap) (x : List ℝ)
    (h : fm.numParams < x.length) :
    (encode_to_statevector fm x).isOk = true ∧
    encode_to_statevector fm x = encode_to_statevector fm (x.take fm.numParams) := by
  have hle : fm.numParams ≤ x.length := le_of_lt h
  have hlen : (x.take fm.numParams).length = fm.numParams := by
    rw [List.length_take]
    exact min_eq_left hle
  have hfun : (fun i : Fin fm.numParams =>
        x.get ⟨(i : ℕ), lt_of_lt_of_le i.isLt hle⟩)
      = (fun i : Fin fm.numParams =>
        (x.take fm.numParams).get ⟨(i : ℕ), lt_of_lt_of_le i.isLt (le_of_eq hlen.symm)⟩) := by
    funext i
    simp [List.get_eq_getElem, List.getElem_take]
  constructor
  · unfold encode_to_statevector
    rw [dif_pos hle]
    rfl
  · unfold encode_to_statevector
    rw [dif_pos hle, dif_pos (le_of_eq hlen.symm)]
    refine congrArg _ (congrArg (fun f => runCircuit (fm.gates f) (initState fm.numQubits)) ?_)
    funext i
    simp [List.get_eq_getElem, List.getElem_take]

/-- Witness for C9: the 2-parameter angle-encoding map with the 3-component
point `[1, 2, 3]`. -/
theorem encode_ignores_surplus_witness :
    (encode_to_statevector (build_angle_encoding_map 2) [1, 2, 3]).isOk = true ∧
    encode_to_statevector (build_angle_encoding_map 2) [1, 2, 3]
      = encode_to_statevector (build_angle_encoding_map 2)
          ([1, 2, 3].take (build_angle_encoding_map 2).numParams) :=
  encode_ignores_surplus (build_angle_encoding_map 2) [1, 2, 3] (by decide)

/-- C5 counterexample: the claim says any point whose length differs from the
number of free parameters fails with `DimensionMismatch`; but the 3-component
point on the 2-parameter angle map succeeds (surplus is silently dropped), and
in particular does not produce `DimensionMismatch`. -/
theorem encode_dimension_mismatch_cex :
    (encode_to_statevector (build_angle_encoding_map 2) [1, 2, 3]).isOk = true ∧
    encode_to_statevector (build_angle_encoding_map 2) [1, 2, 3]
      ≠ Except.error QErr.dimensionMismatch := by
  constructor
  · unfold encode_to_statevector
    rw [dif_pos (by decide : (build_angle_encoding_map 2).numParams ≤ ([1, 2, 3] : List ℝ).length)]
    rfl
  · unfold encode_to_statevector
    rw [dif_pos (by decide : (build_angle_encoding_map 2).numParams ≤ ([1, 2, 3] : List ℝ).length)]
    intro hcontra
    exact Except.noConfusion hcontra

/-- C5 amended: `encode_to_statevector` fails exactly when the point has fewer
components than the map has free parameters, and the failure is the qiskit
unbound-parameter error (the code defines no `DimensionMismatch`); points with
at least as many components always succeed. -/
theorem encode_error_iff_short (fm : FeatureMap) (x : List ℝ) :
    (encode_to_statevector fm x = Except.error QErr.qiskitError
      ↔ x.length < fm.numParams) ∧
    ((encode_to_statevector fm x).isOk = true ↔ fm.numParams ≤ x.length) := by
  unfold encode_to_statevector
  by_cases h : fm.numParams ≤ x.length
  · rw [dif_pos h]
    constructor
    · constructor
      · intro hcontra; exact Except.noConfusion hcontra
      · intro hlt; omega
    · constructor
      · intro _; exact h
      · intro _; rfl
  · rw [dif_neg h]
    constructor
    · constructor
      · intro _; omega
      · intro _; rfl
    · constructor
      · intro hcontra; exact Bool.noConfusion hcontra
      · intro hle; exact absurd hle h

/-- C4 counterexample: on the empty dataset with `n_clusters = 2` the call
fails, but with numpy's `ValueError` (from `rng.choice`), not with
`InvalidClusterCount` or `EmptyDataset` (no such classes exist in the code);
and with `n_clusters = 0` the empty dataset does not fail at all. -/
theorem quantum_kmeans_error_names_cex :
    quantum_kmeans [] 2 10 (build_angle_encoding_map 2) 0
        = Except.error QErr.valueError ∧
    quantum_kmeans [] 2 10 (build_angle_encoding_map 2) 0
        ≠ Except.error QErr.invalidClusterCount ∧
    quantum_kmeans [] 2 10 (build_angle_encoding_map 2) 0
        ≠ Except.error QErr.emptyDataset ∧
    quantum_kmeans [] 0 10 (build_angle_encoding_map 2) 0
        = Except.ok ([], []) := by
  refine ⟨rfl, ?_, ?_, rfl⟩
  · intro hcontra
    rw [show quantum_kmeans [] 2 10 (build_angle_encoding_map 2) 0
        = Except.error QErr.valueError from rfl] at hcontra
    exact QErr.noConfusion (Except.error.inj hcontra)
  · intro hcontra
    rw [show quantum_kmeans [] 2 10 (build_angle_encoding_map 2) 0
        = Except.error QErr.valueError from rfl] at hcontra
    exact QErr.noConfusion (Except.error.inj hcontra)

/-- C4 amended: `n_clusters > n` makes initialization fail, but with numpy's
`ValueError` raised by `rng.choice` (the code defines no `InvalidClusterCount`
and no `EmptyDataset`); `n == 0` therefore fails the same way whenever
`n_clusters > 0`, and succeeds with empty outputs when `n_clusters == 0`. -/
theorem quantum_kmeans_large_k_value_error (X : List Pt) (k m : ℕ)
    (fm : FeatureMap) (seed : ℕ) (h : X.length < k) :
    quantum_kmeans X k m fm seed = Except.error QErr.valueError := by
  unfold quantum_kmeans initialize_centers Rng.choice
  rw [if_neg (by omega)]

/-- Witness for the amended C4 at the empty dataset and `n_clusters = 2`. -/
theorem quantum_kmeans_large_k_value_error_witness :
    quantum_kmeans [] 2 10 (build_angle_encoding_map 2) 0
      = Except.error QErr.valueError :=
  quantum_kmeans_large_k_value_error [] 2 10 (build_angle_encoding_map 2) 0
    (by norm_num)

/-- Helper: evaluating the split-equivalence at the split coordinate. -/
theorem funSplitAt_symm_self {q : ℕ} (t : Fin q) (b : Bool)
    (r : {j : Fin q // j ≠ t} → Bool) :
    (Equiv.funSplitAt t Bool).symm (b, r) t = b := by
  simp [Equiv.funSplitAt, Equiv.piSplitAt]

/-- Helper: updating the split coordinate moves through the split-equivalence. -/
theorem funSplitAt_symm_update {q : ℕ} (t : Fin q) (b b2 : Bool)
    (r : {j : Fin q // j ≠ t} → Bool) :
    Function.update ((Equiv.funSplitAt t Bool).symm (b, r)) t b2
      = (Equiv.funSplitAt t Bool).symm (b2, r) := by
  funext j
  by_cases hj : j = t
  · subst hj
    rw [Function.update_same, funSplitAt_symm_self]
  · rw [Function.update_noteq hj]
    simp [Equiv.funSplitAt, Equiv.piSplitAt, hj]

/-- Helper: a single-qubit gate whose matrix sends every amplitude pair to a
pair of the same squared length preserves the squared-amplitude sum. -/
theorem normSqState_apply1 {q : ℕ} (a b c d : ℂ) (t : Fin q)
    (H : ∀ u v : ℂ,
      Complex.normSq (a * u + b * v) + Complex.normSq (c * u + d * v)
        = Complex.normSq u + Complex.normSq v)
    (ψ : QState q) : normSqState (apply1 a b c d t ψ) = normSqState ψ := by
  classical
  have key : ∀ φ : QState q,
      normSqState φ
        = ∑ r : {j : Fin q // j ≠ t} → Bool, ∑ v : Bool,
            Complex.normSq (φ ((Equiv.funSplitAt t Bool).symm (v, r))) := by
    intro φ
    unfold normSqState
    rw [← Equiv.sum_comp (Equiv.funSplitAt t Bool).symm
      (fun f => Complex.normSq (φ f)), Fintype.sum_prod_type]
    exact Finset.sum_comm
  rw [key (apply1 a b c d t ψ), key ψ]
  refine Finset.sum_congr rfl (fun r _ => ?_)
  rw [Fintype.sum_bool, Fintype.sum_bool]
  have htrue : apply1 a b c d t ψ ((Equiv.funSplitAt t Bool).symm (true, r))
      = c * ψ ((Equiv.funSplitAt t Bool).symm (false, r))
        + d * ψ ((Equiv.funSplitAt t Bool).symm (true, r)) := by
    unfold apply1
    rw [funSplitAt_symm_self, funSplitAt_symm_update, funSplitAt_symm_update]
    rfl
  have hfalse : apply1 a b c d t ψ ((Equiv.funSplitAt t Bool).symm (false, r))
      = a * ψ ((Equiv.funSplitAt t Bool).symm (false, r))
        + b * ψ ((Equiv.funSplitAt t Bool).symm (true, r)) := by
    unfold apply1
    rw [funSplitAt_symm_self, funSplitAt_symm_update, funSplitAt_symm_update]
    rfl
  rw [htrue, hfalse]
  have := H (ψ ((Equiv.funSplitAt t Bool).symm (false, r)))
    (ψ ((Equiv.funSplitAt t Bool).symm (true, r)))
  linarith

/-- Helper: the amplitude-pair property for a real rotation matrix. -/
theorem rot_pair (co si : ℝ) (hcs : co ^ 2 + si ^ 2 = 1) (u v : ℂ) :
    Complex.normSq ((co : ℂ) * u + (-(si : ℂ)) * v)
      + Complex.normSq ((si : ℂ) * u + (co : ℂ) * v)
    = Complex.normSq u + Complex.normSq v := by
  simp only [Complex.normSq_apply, Complex.add_re, Complex.add_im, Complex.mul_re,
    Complex.mul_im, Complex.neg_re, Complex.neg_im, Complex.ofReal_re, Complex.ofReal_im]
  ring_nf
  linear_combination (u.re ^ 2 + u.im ^ 2 + v.re ^ 2 + v.im ^ 2) * hcs

/-- Helper: the amplitude-pair property for a diagonal matrix of
unit-magnitude phases. -/
theorem diag_pair (a d : ℂ) (ha : Complex.abs a = 1) (hd : Complex.abs d = 1)
    (u v : ℂ) :
    Complex.normSq (a * u + 0 * v) + Complex.normSq (0 * u + d * v)
      = Complex.normSq u + Complex.normSq v := by
  have ha' : Complex.normSq a = 1 := by rw [← Complex.sq_abs, ha]; norm_num
  have hd' : Complex.normSq d = 1 := by rw [← Complex.sq_abs, hd]; norm_num
  rw [zero_mul, zero_mul, add_zero, zero_add, Complex.normSq_mul,
    Complex.normSq_mul, ha', hd', one_mul, one_mul]

/-- Helper: the amplitude-pair property for the Hadamard matrix. -/
theorem had_pair (u v : ℂ) :
    Complex.normSq ((((Real.sqrt 2)⁻¹ : ℝ) : ℂ) * u + (((Real.sqrt 2)⁻¹ : ℝ) : ℂ) * v)
      + Complex.normSq ((((Real.sqrt 2)⁻¹ : ℝ) : ℂ) * u + (-(((Real.sqrt 2)⁻¹ : ℝ) : ℂ)) * v)
    = Complex.normSq u + Complex.normSq v := by
  have h2 : ((Real.sqrt 2)⁻¹ : ℝ) ^ 2 = 2⁻¹ := by
    rw [inv_pow, Real.sq_sqrt (by norm_num : (0 : ℝ) ≤ 2)]
  simp only [Complex.normSq_apply, Complex.add_re, Complex.add_im, Complex.mul_re,
    Complex.mul_im, Complex.neg_re, Complex.neg_im, Complex.ofReal_re, Complex.ofReal_im]
  ring_nf
  linear_combination (u.re ^ 2 + u.im ^ 2 + v.re ^ 2 + v.im ^ 2
    + 2 * u.re * v.re + 2 * u.im * v.im) * h2
    + (u.re ^ 2 + u.im ^ 2 + v.re ^ 2 + v.im ^ 2
    - 2 * u.re * v.re - 2 * u.im * v.im) * h2

/-- Helper: the basis permutation of controlled-X is an involution when the
control and target qubits differ. -/
theorem cxFlip_involutive {q : ℕ} (c t : Fin q) (hct : c ≠ t) :
    Function.Involutive (cxFlip c t) := by
  intro f
  unfold cxFlip
  by_cases hfc : f c
  · rw [if_pos hfc]
    have h1 : Function.update f t (!(f t)) c = f c := Function.update_noteq hct _ f
    rw [if_pos (by rw [h1]; exact hfc), Function.update_same, Function.update_idem,
      Bool.not_not, Function.update_eq_self]
  · rw [if_neg hfc, if_neg hfc]

/-- Helper: controlled-X preserves the squared-amplitude sum. -/
theorem normSqState_applyCX {q : ℕ} (c t : Fin q) (hct : c ≠ t) (ψ : QState q) :
    normSqState (applyCX c t ψ) = normSqState ψ := by
  unfold normSqState applyCX
  exact Equiv.sum_comp ((cxFlip_involutive c t hct).toPerm)
    (fun f => Complex.normSq (ψ f))

/-- Helper: every gate preserves the squared-amplitude sum. -/
theorem normSqState_applyGate {q : ℕ} (g : Gate) (ψ : QState q) :
    normSqState (applyGate g ψ) = normSqState ψ := by
  cases g with
  | ry θ t =>
    simp only [applyGate]
    by_cases ht : t < q
    · rw [dif_pos ht]
      exact normSqState_apply1 _ _ _ _ _
        (rot_pair (Real.cos (θ / 2)) (Real.sin (θ / 2)) (Real.cos_sq_add_sin_sq _)) ψ
    · rw [dif_neg ht]
  | rz θ t =>
    simp only [applyGate]
    by_cases ht : t < q
    · rw [dif_pos ht]
      exact normSqState_apply1 _ _ _ _ _
        (diag_pair _ _ (Complex.abs_exp_ofReal_mul_I _) (Complex.abs_exp_ofReal_mul_I _)) ψ
    · rw [dif_neg ht]
  | h t =>
    simp only [applyGate]
    by_cases ht : t < q
    · rw [dif_pos ht]
      exact normSqState_apply1 _ _ _ _ _ had_pair ψ
    · rw [dif_neg ht]
  | p θ t =>
    simp only [applyGate]
    by_cases ht : t < q
    · rw [dif_pos ht]
      exact normSqState_apply1 _ _ _ _ _
        (diag_pair _ _ (by rw [map_one]) (Complex.abs_exp_ofReal_mul_I _)) ψ
    · rw [dif_neg ht]
  | cx c t =>
    simp only [applyGate]
    by_cases hct : c < q ∧ t < q ∧ c ≠ t
    · rw [dif_pos hct]
      exact normSqState_applyCX _ _ (fun he => hct.2.2 (congrArg Fin.val he)) ψ
    · rw [dif_neg hct]

/-- Helper: running any gate list preserves the squared-amplitude sum. -/
theorem normSqState_runCircuit {q : ℕ} (gs : List Gate) (ψ : QState q) :
    normSqState (runCircuit gs ψ) = normSqState ψ := by
  induction gs generalizing ψ with
  | nil => rfl
  | cons g gs ih =>
    unfold runCircuit
    rw [List.foldl_cons]
    exact (ih (applyGate g ψ)).trans (normSqState_applyGate g ψ)

/-- Helper: the all-zeros initial state has squared-amplitude sum 1. -/
theorem normSqState_initState (q : ℕ) : normSqState (initState q) = 1 := by
  classical
  unfold normSqState initState
  have h : ∀ f : Fin q → Bool,
      Complex.normSq (if f = fun _ => false then (1 : ℂ) else 0)
        = if f = fun _ => false then (1 : ℝ) else 0 := by
    intro f
    split_ifs <;> simp
  rw [Finset.sum_congr rfl (fun f _ => h f)]
  rw [Finset.sum_ite_eq' Finset.univ (fun _ => false) (fun _ => (1 : ℝ))]
  simp

/-- Helper: a successful encoding always yields a unit-norm statevector. -/
theorem normSqState_encode (fm : FeatureMap) (x : List ℝ)
    (h : fm.numParams ≤ x.length) :
    ∃ ψ, encode_to_statevector fm x = Except.ok ψ ∧ normSqState ψ = 1 := by
  refine ⟨runCircuit
      (fm.gates (fun i => x.get ⟨(i : ℕ), lt_of_lt_of_le i.isLt h⟩))
      (initState fm.numQubits), ?_, ?_⟩
  · unfold encode_to_statevector
    rw [dif_pos h]
  · rw [normSqState_runCircuit, normSqState_initState]

/-- C2: for every valid point (one value per free parameter) and both
supported feature maps (angle encoding and the ZZ map), the encoded
statevector has squared-amplitude sum 1 within the 1e-6 tolerance (in the
real-number model the sum is exactly 1). -/
theorem encode_unit_norm (q r : ℕ) (x : List ℝ) (fm : FeatureMap)
    (hfm : fm = build_angle_encoding_map q ∨ fm = build_zz_feature_map q r)
    (hx : x.length = fm.numParams) :
    ∃ ψ, encode_to_statevector fm x = Except.ok ψ
      ∧ |normSqState ψ - 1| ≤ 1e-6 := by
  have hle : fm.numParams ≤ x.length := le_of_eq hx.symm
  obtain ⟨ψ, henc, hnorm⟩ := normSqState_encode fm x hle
  refine ⟨ψ, henc, ?_⟩
  rw [hnorm]
  norm_num

/-- Witness for C2: the 2-qubit angle-encoding map at the point `[0, 0]`. -/
theorem encode_unit_norm_witness :
    ∃ ψ, encode_to_statevector (build_angle_encoding_map 2) [0, 0] = Except.ok ψ
      ∧ |normSqState ψ - 1| ≤ 1e-6 :=
  encode_unit_norm 2 2 [0, 0] (build_angle_encoding_map 2) (Or.inl rfl) rfl

/-- Helper: the without-replacement sampler returns exactly `k` indices. -/
theorem choiceAux_length (k : ℕ) :
    ∀ (avail : List ℕ) (r : Rng), (choiceAux k avail r).1.length = k := by
  induction k with
  | zero => intro avail r; rfl
  | succ k ih =>
    intro avail r
    unfold choiceAux
    simp [ih]

/-- Helper: the without-replacement sampler only returns members of the pool. -/
theorem choiceAux_mem (k : ℕ) :
    ∀ (avail : List ℕ) (r : Rng), k ≤ avail.length →
      ∀ i ∈ (choiceAux k avail r).1, i ∈ avail := by
  induction k with
  | zero => intro avail r _ i hi; exact absurd hi (List.not_mem_nil i)
  | succ k ih =>
    intro avail r hk i hi
    have hlen : 0 < avail.length := lt_of_lt_of_le (Nat.succ_pos k) hk
    have hidx : (r.next.1 % avail.length) < avail.length := Nat.mod_lt _ hlen
    unfold choiceAux at hi
    simp only [List.mem_cons] at hi
    rcases hi with hi | hi
    · rw [hi, List.getD_eq_getElem avail 0 hidx]
      exact List.getElem_mem hidx
    · have hk' : k ≤ (avail.eraseIdx (r.next.1 % avail.length)).length := by
        rw [List.length_eraseIdx_of_lt hidx]
        omega
      exact List.mem_of_mem_eraseIdx (ih _ r.next.2 hk' i hi)

/-- Helper: with `k ≤ n`, initialization succeeds and yields `k` centers, each
a row of `X`. -/
theorem initialize_centers_ok (X : List Pt) (k : ℕ) (r : Rng)
    (hk : k ≤ X.length) :
    ∃ cr, initialize_centers X k r = Except.ok cr ∧
      cr.1.length = k ∧ ∀ c ∈ cr.1, c ∈ X := by
  unfold initialize_centers Rng.choice
  rw [if_pos hk]
  refine ⟨_, rfl, ?_, ?_⟩
  · rw [List.length_map, choiceAux_length]
  · intro c hc
    rw [List.mem_map] at hc
    obtain ⟨i, hi, hci⟩ := hc
    have hmem : i ∈ List.range X.length := by
      have := choiceAux_mem k (List.range X.length) r
      exact this (by rw [List.length_range]; exact hk) i hi
    have hilt : i < X.length := List.mem_range.mp hmem
    rw [← hci, List.getD_eq_getElem X [] hilt]
    exact List.getElem_mem hilt

/-- Helper: every point of every successfully encoded batch encodes, and the
batch has one statevector per point. -/
theorem encode_points_ok (fm : FeatureMap) :
    ∀ ps : List Pt, (∀ p ∈ ps, fm.numParams ≤ p.length) →
      ∃ ss, encode_points fm ps = Except.ok ss ∧ ss.length = ps.length := by
  intro ps
  induction ps with
  | nil => intro _; exact ⟨[], rfl, rfl⟩
  | cons p ps ih =>
    intro hall
    obtain ⟨s, hs, _⟩ := normSqState_encode fm p (hall p (List.mem_cons_self p ps))
    obtain ⟨ss, hss, hlen⟩ := ih (fun x hx => hall x (List.mem_cons_of_mem p hx))
    refine ⟨s :: ss, ?_, by simp [hlen]⟩
    unfold encode_points
    rw [hs, hss]

/-- Helper: the first-minimum scan stays below the list end. -/
theorem argminGo_lt (rest : List ℝ) :
    ∀ (i best : ℕ) (bv : ℝ), best < i →
      argminGo rest i best bv < i + rest.length := by
  induction rest with
  | nil => intro i best bv h; unfold argminGo; omega
  | cons v rest ih =>
    intro i best bv h
    unfold argminGo
    by_cases hv : v < bv
    · rw [if_pos hv]
      have := ih (i + 1) i v (Nat.lt_succ_self i)
      simp only [List.length_cons]
      omega
    · rw [if_neg hv]
      have := ih (i + 1) best bv (Nat.lt_succ_of_lt h)
      simp only [List.length_cons]
      omega

/-- Helper: `argmin` of a non-empty list is a valid index. -/
theorem argmin_lt (l : List ℝ) (h : l ≠ []) : argmin l < l.length := by
  cases l with
  | nil => exact absurd rfl h
  | cons v rest =>
    unfold argmin
    have := argminGo_lt rest 1 0 v Nat.one_pos
    simp only [List.length_cons]
    omega

/-- Helper: assigned labels are one per data state and always in `[0, k)` when
there are `k ≥ 1` centers. -/
theorem assign_labels_spec {q : ℕ} (dataStates centerStates : List (QState q))
    (hk : centerStates ≠ []) :
    (assign_labels dataStates centerStates).length = dataStates.length ∧
    ∀ l ∈ assign_labels dataStates centerStates, l < centerStates.length := by
  constructor
  · exact List.length_map dataStates _
  · intro l hl
    rw [assign_labels, List.mem_map] at hl
    obtain ⟨s, _, hls⟩ := hl
    have hne : centerStates.map (fun c => quantum_distance s c) ≠ [] := by
      intro hcontra
      exact hk (List.map_eq_nil_iff.mp hcontra)
    have := argmin_lt _ hne
    rw [List.length_map] at this
    rw [← hls]
    exact this

/-- Helper: the assigned points of any cluster are rows of `X`. -/
theorem assignedPoints_subset (X : List Pt) (labels : List ℕ) (j : ℕ) :
    ∀ p ∈ assignedPoints X labels j, p ∈ X := by
  intro p hp
  unfold assignedPoints at hp
  rw [List.mem_map] at hp
  obtain ⟨pl, hpl, hppl⟩ := hp
  rw [List.mem_filter] at hpl
  rw [← hppl]
  exact (List.of_mem_zip hpl.1).1

/-- Helper: a coordinate-wise sum of `d`-vectors is a `d`-vector. -/
theorem vsum_length (d : ℕ) :
    ∀ ps : List Pt, ps ≠ [] → (∀ p ∈ ps, p.length = d) →
      (vsum ps).length = d := by
  intro ps hne hall
  cases ps with
  | nil => exact absurd rfl hne
  | cons p ps =>
    unfold vsum
    have key : ∀ (xs : List Pt) (acc : Pt), acc.length = d →
        (∀ y ∈ xs, y.length = d) →
        (xs.foldl (fun acc y => List.zipWith (fun a b => a + b) acc y) acc).length = d := by
      intro xs
      induction xs with
      | nil => intro acc h _; exact h
      | cons y ys ih =>
        intro acc hacc hall2
        rw [List.foldl_cons]
        refine ih _ ?_ (fun z hz => hall2 z (List.mem_cons_of_mem y hz))
        rw [List.length_zipWith, hacc, hall2 y (List.mem_cons_self y ys)]
        exact min_self d
    exact key ps p (hall p (List.mem_cons_self p ps))
      (fun z hz => hall z (List.mem_cons_of_mem p hz))

/-- Helper: the mean of a non-empty cluster of `d`-vectors is a `d`-vector. -/
theorem vmean_length (d : ℕ) (ps : List Pt) (hne : ps ≠ [])
    (hall : ∀ p ∈ ps, p.length = d) : (vmean ps).length = d := by
  unfold vmean
  rw [List.length_map]
  exact vsum_length d ps hne hall

/-- Helper: new centers are one per cluster index. -/
theorem update_go_length (X : List Pt) (labels : List ℕ) :
    ∀ (rem j : ℕ) (r : Rng), (update_go X labels j rem r).1.length = rem := by
  intro rem
  induction rem with
  | zero => intro j r; rfl
  | succ rem ih =>
    intro j r
    unfold update_go
    by_cases he : (assignedPoints X labels j).isEmpty
    · simp [he, ih]
    · simp [he, ih]

/-- Helper: every new center is a `d`-vector, provided `X` is non-empty and
all rows of `X` are `d`-vectors. -/
theorem update_go_dim (X : List Pt) (labels : List ℕ) (d : ℕ)
    (hne : X ≠ []) (hX : ∀ p ∈ X, p.length = d) :
    ∀ (rem j : ℕ) (r : Rng), ∀ c ∈ (update_go X labels j rem r).1, c.length = d := by
  intro rem
  induction rem with
  | zero => intro j r c hc; exact absurd hc (List.not_mem_nil c)
  | succ rem ih =>
    intro j r c hc
    have hn : 0 < X.length := List.length_pos.mpr hne
    unfold update_go at hc
    by_cases he : (assignedPoints X labels j).isEmpty
    · simp only [he, if_true] at hc
      rcases List.mem_cons.mp hc with hc | hc
      · have hidx : (Rng.integers X.length r).1 < X.length := by
          unfold Rng.integers Rng.next
          exact Nat.mod_lt _ hn
        rw [hc, List.getD_eq_getElem X [] hidx]
        exact hX _ (List.getElem_mem hidx)
      · exact ih (j + 1) _ c hc
    · simp only [he, if_false] at hc
      rcases List.mem_cons.mp hc with hc | hc
      · have hpne : assignedPoints X labels j ≠ [] := by
          intro hcontra
          rw [hcontra] at he
          exact he rfl
        rw [hc]
        exact vmean_length d _ hpne
          (fun p hp => hX p (assignedPoints_subset X labels j p hp))
      · exact ih (j + 1) _ c hc

/-- Helper: the iteration loop succeeds and preserves the output contract
(labels one per point with values in `[0, k)`, centers one per cluster in
`d`-dimensional real space). -/
theorem kmeans_loop_ok (X : List Pt) (fm : FeatureMap) (k d : ℕ)
    (hne : X ≠ []) (hk0 : 0 < k) (hX : ∀ p ∈ X, p.length = d)
    (hfm : fm.numParams ≤ d) :
    ∀ (m : ℕ) (labels : List ℕ) (centers : List Pt) (r : Rng),
      labels.length = X.length → (∀ l ∈ labels, l < k) →
      centers.length = k → (∀ c ∈ centers, c.length = d) →
      ∃ lc, kmeans_loop X fm k m labels centers r = Except.ok lc ∧
        lc.1.length = X.length ∧ (∀ l ∈ lc.1, l < k) ∧
        lc.2.length = k ∧ ∀ c ∈ lc.2, c.length = d := by
  intro m
  induction m with
  | zero =>
    intro labels centers r h1 h2 h3 h4
    exact ⟨(labels, centers), rfl, h1, h2, h3, h4⟩
  | succ m ih =>
    intro labels centers r h1 h2 h3 h4
    obtain ⟨ds, hds, hdsl⟩ := encode_points_ok fm X
      (fun p hp => le_trans hfm (le_of_eq (hX p hp).symm))
    obtain ⟨cs, hcs, hcsl⟩ := encode_points_ok fm centers
      (fun p hp => le_trans hfm (le_of_eq (h4 p hp).symm))
    have hcsne : cs ≠ [] := by
      intro hcontra
      rw [hcontra] at hcsl
      rw [h3] at hcsl
      simp only [List.length_nil] at hcsl
      omega
    obtain ⟨hl2len, hl2lt⟩ := assign_labels_spec ds cs hcsne
    have hl2lt' : ∀ l ∈ assign_labels ds cs, l < k := by
      intro l hl
      have := hl2lt l hl
      rw [hcsl, h3] at this
      exact this
    have hul : (update_centers X (assign_labels ds cs) k r).1.length = k :=
      update_go_length X _ k 0 r
    have hud : ∀ c ∈ (update_centers X (assign_labels ds cs) k r).1, c.length = d :=
      update_go_dim X _ d hne hX k 0 r
    unfold kmeans_loop
    rw [hds, hcs]
    simp only []
    by_cases hac : allclose (update_centers X (assign_labels ds cs) k r).1 centers
    · rw [if_pos hac]
      exact ⟨_, rfl, by rw [hl2len, hdsl], hl2lt', hul, hud⟩
    · rw [if_neg hac]
      exact ih (assign_labels ds cs) (update_centers X (assign_labels ds cs) k r).1
        (update_centers X (assign_labels ds cs) k r).2
        (by rw [hl2len, hdsl]) hl2lt' hul hud

/-- C1: on a non-empty dataset whose rows are `d`-vectors, with
`0 < k ≤ n` and a feature map needing at most `d` parameters (which covers
both supported kinds built for the data dimension), `quantum_kmeans` succeeds
and returns labels of length `n` with values in `[0, k)` and `k` centers in
`d`-dimensional real coordinate space. -/
theorem quantum_kmeans_output_contract (X : List Pt) (k m d : ℕ)
    (fm : FeatureMap) (seed : ℕ) (hne : X ≠ []) (hk0 : 0 < k)
    (hkn : k ≤ X.length) (hX : ∀ p ∈ X, p.length = d)
    (hfm : fm.numParams ≤ d) :
    ∃ lc, quantum_kmeans X k m fm seed = Except.ok lc ∧
      lc.1.length = X.length ∧ (∀ l ∈ lc.1, l < k) ∧
      lc.2.length = k ∧ ∀ c ∈ lc.2, c.length = d := by
  obtain ⟨cr, hcr, hclen, hcmem⟩ := initialize_centers_ok X k (default_rng seed) hkn
  have hlab1 : (List.replicate X.length (0 : ℕ)).length = X.length :=
    List.length_replicate _ _
  have hlab2 : ∀ l ∈ List.replicate X.length (0 : ℕ), l < k := by
    intro l hl
    rw [List.eq_of_mem_replicate hl]
    exact hk0
  obtain ⟨lc, hlc, h1, h2, h3, h4⟩ := kmeans_loop_ok X fm k d hne hk0 hX hfm m
    (List.replicate X.length 0) cr.1 cr.2 hlab1 hlab2 hclen
    (fun c hc => hX c (hcmem c hc))
  refine ⟨lc, ?_, h1, h2, h3, h4⟩
  unfold quantum_kmeans
  rw [hcr]
  exact hlc

/-- Witness for C1: two 2-D points, one cluster, one iteration, the 2-qubit
angle-encoding map, seed 0. -/
theorem quantum_kmeans_output_contract_witness :
    ∃ lc, quantum_kmeans [[1, 2], [3, 4]] 1 1 (build_angle_encoding_map 2) 0
        = Except.ok lc ∧
      lc.1.length = ([[1, 2], [3, 4]] : List Pt).length ∧
      (∀ l ∈ lc.1, l < 1) ∧ lc.2.length = 1 ∧ ∀ c ∈ lc.2, c.length = 2 :=
  quantum_kmeans_output_contract [[1, 2], [3, 4]] 1 1 2 (build_angle_encoding_map 2) 0
    (List.cons_ne_nil _ _) (by norm_num) (by simp)
    (by
      intro p hp
      simp only [List.mem_cons, List.not_mem_nil, or_false] at hp
      rcases hp with h | h <;> subst h <;> simp)
    (by decide)

/-- C3: two calls of `quantum_kmeans` with the same seed and the same inputs
return identical labels and centers.  In the embedding every source of
randomness is the generator built by `default_rng` from the passed seed and
threaded explicitly through initialization and the update steps, so the whole
computation is a pure function of its arguments. -/
theorem quantum_kmeans_deterministic (X : List Pt) (k m : ℕ) (fm : FeatureMap)
    (s1 s2 : ℕ) (hs : s1 = s2) :
    quantum_kmeans X k m fm s1 = quantum_kmeans X k m fm s2 := by
  rw [hs]

/-- Witness for C3 at a concrete dataset and seed 0. -/
theorem quantum_kmeans_deterministic_witness :
    quantum_kmeans [[1, 2]] 1 1 (build_angle_encoding_map 2) 0
      = quantum_kmeans [[1, 2]] 1 1 (build_angle_encoding_map 2) 0 :=
  quantum_kmeans_deterministic [[1, 2]] 1 1 (build_angle_encoding_map 2) 0 0 rfl

/-- Helper: the new center at offset `i` of the update scan starting at
cluster `j` follows the empty-cluster policy for cluster `j + i`. -/
theorem update_go_elem (X : List Pt) (labels : List ℕ) (hne : X ≠ []) :
    ∀ (rem j i : ℕ) (r : Rng), i < rem →
      ∃ c, (update_go X labels j rem r).1[i]? = some c ∧
        (assignedPoints X labels (j + i) = [] → c ∈ X) ∧
        (assignedPoints X labels (j + i) ≠ [] →
          c = vmean (assignedPoints X labels (j + i))) := by
  intro rem
  induction rem with
  | zero => intro j i r hi; omega
  | succ rem ih =>
    intro j i r hi
    have hn : 0 < X.length := List.length_pos.mpr hne
    cases i with
    | zero =>
      unfold update_go
      by_cases he : (assignedPoints X labels j).isEmpty
      · rw [if_pos he]
        simp only [Nat.add_zero]
        refine ⟨_, List.getElem?_cons_zero, fun _ => ?_, fun hcontra => ?_⟩
        · have hidx : (Rng.integers X.length r).1 < X.length := by
            unfold Rng.integers Rng.next
            exact Nat.mod_lt _ hn
          rw [List.getD_eq_getElem X [] hidx]
          exact List.getElem_mem hidx
        · exact absurd (List.isEmpty_iff.mp he) hcontra
      · rw [if_neg he]
        simp only [Nat.add_zero]
        refine ⟨_, List.getElem?_cons_zero, fun hcontra => ?_, fun _ => rfl⟩
        rw [hcontra] at he
        exact absurd rfl he
    | succ i =>
      have harith : j + 1 + i = j + (i + 1) := by omega
      unfold update_go
      by_cases he : (assignedPoints X labels j).isEmpty
      · rw [if_pos he]
        have hstep := ih (j + 1) i (Rng.integers X.length r).2 (by omega)
        rw [harith] at hstep
        obtain ⟨c, hc, hcs⟩ := hstep
        refine ⟨c, ?_, hcs⟩
        show (X.getD (Rng.integers X.length r).1 []
          :: (update_go X labels (j + 1) rem (Rng.integers X.length r).2).1)[i + 1]?
          = some c
        rw [List.getElem?_cons_succ]
        exact hc
      · rw [if_neg he]
        have hstep := ih (j + 1) i r (by omega)
        rw [harith] at hstep
        obtain ⟨c, hc, hcs⟩ := hstep
        refine ⟨c, ?_, hcs⟩
        show (vmean (assignedPoints X labels j)
          :: (update_go X labels (j + 1) rem r).1)[i + 1]? = some c
        rw [List.getElem?_cons_succ]
        exact hc

/-- C6: in every update step, each cluster index `j < k` gets a new center
that is a genuine data point drawn from the full dataset via the threaded
generator when the cluster has no assigned points (so the step never fails and
the center is not a degenerate value), and the coordinate-wise mean of the
assigned points, taken in the original real coordinate space, otherwise. -/
theorem update_step_policy (X : List Pt) (labels : List ℕ) (k : ℕ) (r : Rng)
    (j : ℕ) (hj : j < k) (hne : X ≠ []) :
    ∃ c, (update_centers X labels k r).1[j]? = some c ∧
      (assignedPoints X labels j = [] → c ∈ X) ∧
      (assignedPoints X labels j ≠ [] →
        c = vmean (assignedPoints X labels j)) := by
  have h := update_go_elem X labels hne k 0 j r hj
  rw [Nat.zero_add] at h
  exact h

/-- Witness for C6: the dataset `[[1, 2]]` with all points labelled 0 and
`k = 2`, so cluster 1 is empty and must be resampled. -/
theorem update_step_policy_witness :
    ∃ c, (update_centers [[1, 2]] [0] 2 (default_rng 0)).1[1]? = some c ∧
      (assignedPoints [[1, 2]] [0] 1 = [] → c ∈ ([[1, 2]] : List Pt)) ∧
      (assignedPoints [[1, 2]] [0] 1 ≠ [] →
        c = vmean (assignedPoints [[1, 2]] [0] 1)) :=
  update_step_policy [[1, 2]] [0] 2 (default_rng 0) 1 (by norm_num)
    (List.cons_ne_nil _ _)

/-- C10: with `max_iters = 0` and a valid cluster count `k ≤ n`, the loop body
never runs: the call returns the all-zero label list of length `n` together
with the `k` initial centers, which are the rows of `X` sampled without
replacement by the seeded generator during initialization. -/
theorem quantum_kmeans_zero_iters (X : List Pt) (k : ℕ) (fm : FeatureMap)
    (seed : ℕ) (hk : k ≤ X.length) :
    ∃ cr, initialize_centers X k (default_rng seed) = Except.ok cr ∧
      quantum_kmeans X k 0 fm seed
        = Except.ok (List.replicate X.length 0, cr.1) ∧
      cr.1.length = k ∧ ∀ c ∈ cr.1, c ∈ X := by
  obtain ⟨cr, hcr, hlen, hmem⟩ := initialize_centers_ok X k (default_rng seed) hk
  refine ⟨cr, hcr, ?_, hlen, hmem⟩
  unfold quantum_kmeans
  rw [hcr]
  rfl

/-- Witness for C10: two 2-D points, one cluster, seed 0. -/
theorem quantum_kmeans_zero_iters_witness :
    ∃ cr, initialize_centers [[1, 2], [3, 4]] 1 (default_rng 0) = Except.ok cr ∧
      quantum_kmeans [[1, 2], [3, 4]] 1 0 (build_angle_encoding_map 2) 0
        = Except.ok (List.replicate ([[1, 2], [3, 4]] : List Pt).length 0, cr.1) ∧
      cr.1.length = 1 ∧ ∀ c ∈ cr.1, c ∈ ([[1, 2], [3, 4]] : List Pt) :=
  quantum_kmeans_zero_iters [[1, 2], [3, 4]] 1 (build_angle_encoding_map 2) 0
    (by norm_num)

end QuantumClustering
